import Mathlib

/-!
Verification of the mdweb literate-programming line classifier.

The Go source (package `mdweb`) is embedded shallowly below.  Strings are
modelled as lists of characters: every character the program inspects
(tab, space, `<`, `>`, `.`, `/`, newline) is ASCII, so Go's byte-level
operations coincide with the character-level operations used here.
-/

namespace Mdweb

/-- Strings of the Go source, modelled as lists of characters. -/
abbrev Str := List Char

/-- The character class of Go `unicode.IsSpace`, used by `strings.TrimSpace`:
ASCII whitespace, NEL, NBSP and the Unicode space separators. -/
def isSpace (c : Char) : Bool :=
  c == ' ' || c == '\t' || c == '\n' || c == '\u000B' || c == '\u000C' || c == '\r' ||
  c == '\u0085' || c == ' ' || c == ' ' ||
  (decide (' ' ≤ c) && decide (c ≤ ' ')) ||
  c == ' ' || c == ' ' || c == ' ' || c == ' ' || c == '　'

/-- Go `strings.TrimSpace`: drop leading and trailing whitespace. -/
def trimSpace (s : Str) : Str :=
  ((s.dropWhile isSpace).reverse.dropWhile isSpace).reverse

/-- Function `unindent` from the source: strip one leading tab, or else a run of
exactly four leading spaces; the second component reports whether the line
was indented. -/
def unindent (line : Str) : Str × Bool :=
  if line.take 1 == ['\t'] then (line.drop 1, true)
  else if line.take 4 == [' ', ' ', ' ', ' '] then (line.drop 4, true)
  else (line, false)

/-- The whitespace class `\s` of the Go `regexp` package: `[\t\n\f\r ]`. -/
def isRegexSpace (c : Char) : Bool :=
  c == '\t' || c == '\n' || c == '\u000C' || c == '\r' || c == ' '

/-- One candidate split of the text after `<<` against `(.*)>>\s*$`:
position `i` is valid when the first `i` characters can be matched by `(.*)`
(so none of them is a newline), the next two characters are the literal
`>>`, and everything after them lies in `\s`. -/
def validSplit (rest : Str) (i : Nat) : Bool :=
  (rest.take i).all (fun c => c != '\n') &&
  (rest.drop i).take 2 == ['>', '>'] &&
  ((rest.drop i).drop 2).all isRegexSpace

/-- The largest valid split position `≤ n`: Go's regexp engine resolves the
greedy `(.*)` to the longest capture for which the rest of the pattern still
matches. -/
def findGreedyAux (rest : Str) : Nat → Option Nat
  | 0 => if validSplit rest 0 then some 0 else none
  | n + 1 => if validSplit rest (n + 1) then some (n + 1) else findGreedyAux rest n

/-- Go `rxDirective.FindStringSubmatch` for the anchored pattern
`^<<(.*)>>\s*$`: the greedy capture of `(.*)` when the whole string
matches, `none` otherwise. -/
def rxDirectiveMatch (s : Str) : Option Str :=
  if s.take 2 == ['<', '<'] then
    match findGreedyAux (s.drop 2) (s.drop 2).length with
    | some i => some ((s.drop 2).take i)
    | none => none
  else none

/-- Function `parseDirective` from the source: a line is a directive when it is
indented and its unindented remainder matches `rxDirective`; the payload is
the capture trimmed of surrounding whitespace.  A pure function. -/
def parseDirective (line : Str) : Str × Bool :=
  if (unindent line).2 then
    match rxDirectiveMatch (unindent line).1 with
    | some cap => (trimSpace cap, true)
    | none => ([], false)
  else ([], false)

/-- Type `lineType` from the source: the four states of the classifier. -/
inductive lineType where
  | Code
  | Boilerplate
  | Example
  | Text
deriving DecidableEq, Repr

/-- The `Line` record emitted on the output channel.  The Go zero value `""`
(here `[]`) encodes an absent field. -/
structure Line where
  Code : Str
  CodeTarget : Str
  Text : Str
  TextTarget : Str
deriving DecidableEq, Repr

/-- The processor state: the machine mode (`state` in the source) together
with the output-file names fixed by `ProcessFile` and the mutable current
code target. -/
structure ProcState where
  state : lineType
  defaultCodeOutput : Str
  defaultTextOutput : Str
  currentTarget : Str
deriving DecidableEq, Repr

/-- Function `processDirective` from the source. -/
def processDirective (directive : Str) (st : ProcState) : ProcState :=
  if directive == ['!', '-', '-'] then { st with state := lineType.Example }
  else if directive == ['#', '-', '-'] then { st with state := lineType.Boilerplate }
  else if directive == [] then
    { st with state := lineType.Code, currentTarget := st.defaultCodeOutput }
  else
    { st with state := lineType.Code, currentTarget := directive }

/-- Function `processLine` from the source, as a pure transition function: the new
state together with the record sent on the channel, if any. -/
def processLine (line : Str) (st : ProcState) : ProcState × Option Line :=
  if (parseDirective line).2 then (processDirective (parseDirective line).1 st, none)
  else match st.state with
    | lineType.Code =>
        if (unindent line).2 || trimSpace line == [] then
          (st, some ⟨(unindent line).1, st.currentTarget, line, st.defaultTextOutput⟩)
        else
          ({ st with state := lineType.Text }, some ⟨[], [], line, st.defaultTextOutput⟩)
    | lineType.Boilerplate =>
        if (unindent line).2 || trimSpace line == [] then
          (st, some ⟨(unindent line).1, st.currentTarget, [], []⟩)
        else
          ({ st with state := lineType.Text }, some ⟨[], [], line, st.defaultTextOutput⟩)
    | lineType.Example =>
        if (unindent line).2 || trimSpace line == [] then
          (st, some ⟨[], [], line, st.defaultTextOutput⟩)
        else
          ({ st with state := lineType.Text }, some ⟨[], [], line, st.defaultTextOutput⟩)
    | lineType.Text =>
        if (unindent line).2 then
          ({ st with state := lineType.Code }, some ⟨(unindent line).1, st.currentTarget, line, st.defaultTextOutput⟩)
        else
          (st, some ⟨[], [], line, st.defaultTextOutput⟩)

/-- The reader loop of `ProcessFile`: run `processLine` over the document's
lines in order, collecting the emitted records. -/
def processLines (ls : List Str) (st : ProcState) : ProcState × List Line :=
  match ls with
  | [] => (st, [])
  | l :: rest =>
      let step := processLine l st
      let restRun := processLines rest step.1
      (restRun.1, step.2.toList ++ restRun.2)

/-- Go `filepath.Base` with Unix separators: `"."` for the empty path, strip
trailing slashes, keep the part after the last slash, `"/"` when the path
consisted only of slashes. -/
def base (s : Str) : Str :=
  if s == [] then ['.']
  else
    let s1 := (s.reverse.dropWhile (fun c => c == '/')).reverse
    if s1 == [] then ['/']
    else (s1.reverse.takeWhile (fun c => c != '/')).reverse

/-- Scanning a reversed string: length of the extension Go `filepath.Ext`
returns (the suffix from the last dot, stopping at a separator). -/
def extLenAux : Str → Nat → Nat
  | [], _ => 0
  | c :: rest, k => if c == '/' then 0 else if c == '.' then k + 1 else extLenAux rest (k + 1)

/-- Length of Go `filepath.Ext`. -/
def extLen (b : Str) : Nat := extLenAux b.reverse 0

/-- Function `removeExtension` from the source: `filepath.Base`, then cut off
`filepath.Ext`. -/
def removeExtension (filename : Str) : Str :=
  (base filename).take ((base filename).length - extLen (base filename))

/-- The `for f1 != f2` loop of `removeExtensions`, with explicit fuel. -/
def removeExtensionsFuel : Nat → Str → Str
  | 0, f => f
  | n + 1, f =>
      if f == removeExtension f then f else removeExtensionsFuel n (removeExtension f)

/-- Function `removeExtensions` from the source.  The Go loop is unbounded; here it
gets `length + 2` rounds of fuel, which is proved below to reach the loop's
fixed point on every input. -/
def removeExtensions (filename : Str) : Str :=
  removeExtensionsFuel (filename.length + 2) filename

/-- The state set up by `ProcessFile` before the first line is read: the
machine starts in `Text`, the default outputs are derived from the document
name, and the current target starts at the default code output. -/
def initState (filename : Str) : ProcState :=
  { state := lineType.Text
  , defaultCodeOutput := removeExtension filename
  , defaultTextOutput := removeExtensions filename ++ ['.', 'm', 'd']
  , currentTarget := removeExtension filename }

/-- Concatenation, in emission order, of the `Text` fields of the records
whose `TextTarget` is non-empty (what `mdweave` appends to the
documentation file). -/
def textConcat : List Line → Str
  | [] => []
  | r :: rs => (if r.TextTarget == [] then [] else r.Text) ++ textConcat rs

/-- The input lines the documentation stream keeps: every line except the
directive lines and the indented-or-blank continuation lines of a
boilerplate run. -/
def docKeep (st : ProcState) : List Str → List Str
  | [] => []
  | l :: rest =>
      (if (parseDirective l).2 then []
       else if st.state == lineType.Boilerplate && ((unindent l).2 || trimSpace l == []) then []
       else [l]) ++ docKeep (processLine l st).1 rest

/-! ### Frame helper lemmas -/

theorem processDirective_defaultCode (d : Str) (st : ProcState) :
    (processDirective d st).defaultCodeOutput = st.defaultCodeOutput := by
  unfold processDirective
  split
  · rfl
  · split
    · rfl
    · split <;> rfl

theorem processDirective_defaultText (d : Str) (st : ProcState) :
    (processDirective d st).defaultTextOutput = st.defaultTextOutput := by
  unfold processDirective
  split
  · rfl
  · split
    · rfl
    · split <;> rfl

theorem processLine_defaultCode (l : Str) (st : ProcState) :
    (processLine l st).1.defaultCodeOutput = st.defaultCodeOutput := by
  obtain ⟨s, dc, dt, ct⟩ := st
  unfold processLine
  split
  · exact processDirective_defaultCode _ _
  · cases s <;> dsimp only <;> split <;> rfl

theorem processLine_defaultText (l : Str) (st : ProcState) :
    (processLine l st).1.defaultTextOutput = st.defaultTextOutput := by
  obtain ⟨s, dc, dt, ct⟩ := st
  unfold processLine
  split
  · exact processDirective_defaultText _ _
  · cases s <;> dsimp only <;> split <;> rfl

theorem processLine_currentTarget (l : Str) (st : ProcState)
    (h : (parseDirective l).2 = false) :
    (processLine l st).1.currentTarget = st.currentTarget := by
  obtain ⟨s, dc, dt, ct⟩ := st
  unfold processLine
  rw [if_neg (by simp [h])]
  cases s <;> dsimp only <;> split <;> rfl

theorem processDirective_comment_currentTarget (st : ProcState) :
    (processDirective ['!', '-', '-'] st).currentTarget = st.currentTarget ∧
    (processDirective ['#', '-', '-'] st).currentTarget = st.currentTarget := by
  constructor <;> rfl

theorem processLine_snd_isSome (l : Str) (st : ProcState) :
    (processLine l st).2.isSome = !(parseDirective l).2 := by
  obtain ⟨s, dc, dt, ct⟩ := st
  unfold processLine
  by_cases h : (parseDirective l).2 = true
  · rw [if_pos h, h]
    rfl
  · rw [if_neg h]
    rw [Bool.not_eq_true] at h
    rw [h]
    cases s <;> dsimp only <;> split <;> rfl

theorem processLines_length (ls : List Str) (st : ProcState) :
    (processLines ls st).2.length + ls.countP (fun l => (parseDirective l).2) = ls.length := by
  induction ls generalizing st with
  | nil => simp [processLines]
  | cons l rest ih =>
      have h := processLine_snd_isSome l st
      have ihs := ih (processLine l st).1
      unfold processLines
      rw [List.countP_cons, List.length_append, List.length_cons]
      by_cases hp : (parseDirective l).2 = true
      · rw [hp] at h
        have hnone : (processLine l st).2 = none := by
          cases hmm : (processLine l st).2
          · rfl
          · rw [hmm] at h; simp at h
        rw [hnone]
        simp only [Option.toList_none, List.length_nil]
        simp [hp]
        omega
      · rw [Bool.not_eq_true] at hp
        rw [hp] at h
        obtain ⟨a, ha⟩ := Option.isSome_iff_exists.mp h
        rw [ha]
        simp only [Option.toList_some, List.length_cons, List.length_nil]
        simp [hp]
        omega

/-! ### Claim theorems -/

/-- C2: the classifier emits exactly one record per non-directive line
(`processLine` returns `some` exactly when the line is not a directive) and
none per directive line, so the output length is the number of input lines
minus the number of directive lines. -/
theorem c2_one_record_per_nondirective :
    (∀ (l : Str) (st : ProcState), (processLine l st).2.isSome = !(parseDirective l).2) ∧
    (∀ (ls : List Str) (st : ProcState),
      (processLines ls st).2.length = ls.length - ls.countP (fun l => (parseDirective l).2)) := by
  refine ⟨processLine_snd_isSome, fun ls st => ?_⟩
  have := processLines_length ls st
  omega

/-- C8: a non-indented, non-blank (hence non-directive) line drives the
machine to the `Text` state from every prior state. -/
theorem c8_nonindented_nonblank_forces_Text (line : Str) (st : ProcState)
    (hInd : (unindent line).2 = false) (hBlank : trimSpace line ≠ []) :
    ((processLine line st).1).state = lineType.Text := by
  have hd : (parseDirective line).2 = false := by
    unfold parseDirective
    rw [if_neg (by simp [hInd])]
  have hB : (trimSpace line == []) = false := by
    simp [hBlank]
  obtain ⟨s, dc, dt, ct⟩ := st
  unfold processLine
  rw [if_neg (by simp [hd])]
  cases s <;> dsimp only <;> simp [hInd, hB]

/-- Witness for C8 at the concrete line `"hello"` in the `Code` state. -/
theorem c8_witness :
    ((processLine "hello".data ⟨lineType.Code, "a".data, "b".data, "a".data⟩).1).state
      = lineType.Text :=
  c8_nonindented_nonblank_forces_Text "hello".data _ (by decide) (by decide)

/-- C5: a blank non-directive line inside a `Code`, `Boilerplate` or
`Example` run leaves the whole state (in particular the mode) unchanged and
is classified like the enclosing run: `Code` and `Boilerplate` emit a code
record aimed at `currentTarget` (`Code` also feeds the text stream,
`Boilerplate` suppresses it), `Example` emits a text-only record. -/
theorem c5_blank_line_continues_run (line : Str) (st : ProcState)
    (hBlank : trimSpace line = []) (hd : (parseDirective line).2 = false) :
    (st.state = lineType.Code →
       processLine line st = (st, some ⟨(unindent line).1, st.currentTarget, line, st.defaultTextOutput⟩)) ∧
    (st.state = lineType.Boilerplate →
       processLine line st = (st, some ⟨(unindent line).1, st.currentTarget, [], []⟩)) ∧
    (st.state = lineType.Example →
       processLine line st = (st, some ⟨[], [], line, st.defaultTextOutput⟩)) := by
  have hB : (trimSpace line == []) = true := by simp [hBlank]
  refine ⟨fun hs => ?_, fun hs => ?_, fun hs => ?_⟩ <;>
    · unfold processLine
      rw [if_neg (by simp [hd]), hs]
      dsimp only
      rw [hB, Bool.or_true, if_pos rfl]

/-- Witness for C5: the blank line `"\t"` processed in each of the three
run states. -/
theorem c5_witness :
    processLine "\t".data ⟨lineType.Code, "a".data, "b".data, "c".data⟩
      = (⟨lineType.Code, "a".data, "b".data, "c".data⟩,
          some ⟨[], "c".data, "\t".data, "b".data⟩) ∧
    processLine "\t".data ⟨lineType.Boilerplate, "a".data, "b".data, "c".data⟩
      = (⟨lineType.Boilerplate, "a".data, "b".data, "c".data⟩,
          some ⟨[], "c".data, [], []⟩) ∧
    processLine "\t".data ⟨lineType.Example, "a".data, "b".data, "c".data⟩
      = (⟨lineType.Example, "a".data, "b".data, "c".data⟩,
          some ⟨[], [], "\t".data, "b".data⟩) :=
  ⟨(c5_blank_line_continues_run "\t".data _ (by decide) (by decide)).1 rfl,
   (c5_blank_line_continues_run "\t".data _ (by decide) (by decide)).2.1 rfl,
   (c5_blank_line_continues_run "\t".data _ (by decide) (by decide)).2.2 rfl⟩

/-- C7: non-directive lines and the `!--`/`#--` directives never change
`currentTarget`; the default outputs never change at all; and whenever a
processed line does change `currentTarget`, that line was a directive whose
payload was neither `!--` nor `#--` (a target directive). -/
theorem c7_frame_conditions (l : Str) (st : ProcState) :
    ((parseDirective l).2 = false → (processLine l st).1.currentTarget = st.currentTarget) ∧
    (processDirective ['!', '-', '-'] st).currentTarget = st.currentTarget ∧
    (processDirective ['#', '-', '-'] st).currentTarget = st.currentTarget ∧
    (processLine l st).1.defaultCodeOutput = st.defaultCodeOutput ∧
    (processLine l st).1.defaultTextOutput = st.defaultTextOutput ∧
    ((processLine l st).1.currentTarget ≠ st.currentTarget →
      (parseDirective l).2 = true ∧
      (parseDirective l).1 ≠ ['!', '-', '-'] ∧ (parseDirective l).1 ≠ ['#', '-', '-']) := by
  refine ⟨processLine_currentTarget l st, rfl, rfl,
    processLine_defaultCode l st, processLine_defaultText l st, fun hch => ?_⟩
  by_cases hd : (parseDirective l).2 = true
  · refine ⟨hd, ?_, ?_⟩
    · intro hban
      apply hch
      have : processLine l st = (processDirective (parseDirective l).1 st, none) := by
        unfold processLine
        rw [if_pos hd]
      rw [this, hban]
      rfl
    · intro hban
      apply hch
      have : processLine l st = (processDirective (parseDirective l).1 st, none) := by
        unfold processLine
        rw [if_pos hd]
      rw [this, hban]
      rfl
  · rw [Bool.not_eq_true] at hd
    exact absurd (processLine_currentTarget l st hd) hch

/-- Witness for C7: the prose line `"hello"` leaves the target alone, and the
target directive `"\t<<t.txt>>"` (which does change the target) is reported
as a non-`!--`, non-`#--` directive. -/
theorem c7_witness :
    (processLine "hello".data ⟨lineType.Text, "a".data, "b".data, "a".data⟩).1.currentTarget
        = "a".data ∧
    ((parseDirective "\t<<t.txt>>".data).2 = true ∧
      (parseDirective "\t<<t.txt>>".data).1 ≠ ['!', '-', '-'] ∧
      (parseDirective "\t<<t.txt>>".data).1 ≠ ['#', '-', '-']) :=
  ⟨(c7_frame_conditions "hello".data _).1 (by decide),
   (c7_frame_conditions "\t<<t.txt>>".data ⟨lineType.Text, "a".data, "b".data, "a".data⟩).2.2.2.2.2
     (by decide)⟩

/-- C3: directive resolution: `!--` selects `Example`, `#--` selects
`Boilerplate`, the empty payload selects `Code` and resets `currentTarget`
to the default code output, any other payload selects `Code` (from every
prior mode) and retargets to the payload; and after a `<<custom.ext>>`
redirect a later `<<>>` restores `currentTarget` to the document-derived
default. -/
theorem c3_directive_resolution (st : ProcState) :
    processDirective ['!', '-', '-'] st = { st with state := lineType.Example } ∧
    processDirective ['#', '-', '-'] st = { st with state := lineType.Boilerplate } ∧
    processDirective [] st = { st with state := lineType.Code, currentTarget := st.defaultCodeOutput } ∧
    (∀ p : Str, p ≠ ['!', '-', '-'] → p ≠ ['#', '-', '-'] → p ≠ [] →
      processDirective p st = { st with state := lineType.Code, currentTarget := p }) ∧
    ((processLine "\t<<>>".data (processLine "\t<<custom.ext>>".data st).1).1.currentTarget
        = st.defaultCodeOutput ∧
     (processLine "\t<<>>".data (processLine "\t<<custom.ext>>".data st).1).1.state
        = lineType.Code) := by
  have hcustom : processLine "\t<<custom.ext>>".data st
      = (processDirective "custom.ext".data st, none) := by
    have hp : parseDirective "\t<<custom.ext>>".data = ("custom.ext".data, true) := by decide
    unfold processLine
    rw [hp]
    rfl
  have hempty : ∀ st' : ProcState, processLine "\t<<>>".data st'
      = (processDirective [] st', none) := by
    intro st'
    have hp : parseDirective "\t<<>>".data = ([], true) := by decide
    unfold processLine
    rw [hp]
    rfl
  refine ⟨rfl, rfl, rfl, fun p h1 h2 h3 => ?_, ?_, ?_⟩
  · unfold processDirective
    rw [if_neg (by simp [h1]), if_neg (by simp [h2]), if_neg (by simp [h3])]
  · rw [hcustom]
    dsimp only
    rw [hempty]
    have : processDirective "custom.ext".data st
        = { st with state := lineType.Code, currentTarget := "custom.ext".data } := by
      unfold processDirective
      rw [if_neg (by decide), if_neg (by decide), if_neg (by decide)]
    rw [this]
    rfl
  · rw [hcustom]
    dsimp only
    rw [hempty]
    rfl

/-- Witness for C3: resolving the target directive payload `"foo.txt"` from
the `Example` state moves the machine to `Code` and retargets it. -/
theorem c3_witness :
    processDirective "foo.txt".data ⟨lineType.Example, "a".data, "b".data, "c".data⟩
      = ⟨lineType.Code, "a".data, "b".data, "foo.txt".data⟩ :=
  (c3_directive_resolution _).2.2.2.1 "foo.txt".data (by decide) (by decide) (by decide)

/-! ### Declarative reading of the pattern `^<<(.*)>>\s*$` -/

/-- Characters matched by `(.*)` in the Go pattern: any characters except newlines. -/
def NoNewline (mid : Str) : Prop := ∀ c ∈ mid, c ≠ '\n'

/-- Every character lies in the regexp class `\s`. -/
def AllSpace (ws : Str) : Prop := ∀ c ∈ ws, isRegexSpace c = true

/-- A decomposition of `s` witnessing a match of `^<<(.*)>>\s*$`:
capture `mid` (matched by `(.*)`) and trailing whitespace `ws`. -/
def Decomp (s mid ws : Str) : Prop :=
  s = '<' :: '<' :: (mid ++ '>' :: '>' :: ws) ∧ NoNewline mid ∧ AllSpace ws

/-- Capture `mid` is the greedy one: it admits a decomposition of `s` and no
decomposition has a longer capture. -/
def GreedyCapture (s mid : Str) : Prop :=
  (∃ ws, Decomp s mid ws) ∧ ∀ mid2 ws2, Decomp s mid2 ws2 → mid2.length ≤ mid.length

theorem validSplit_decomp {rest : Str} {i : Nat} (h : validSplit rest i = true) :
    Decomp ('<' :: '<' :: rest) (rest.take i) ((rest.drop i).drop 2) := by
  unfold validSplit at h
  rw [Bool.and_eq_true, Bool.and_eq_true] at h
  obtain ⟨⟨h1, h2⟩, h3⟩ := h
  rw [beq_iff_eq] at h2
  refine ⟨?_, ?_, ?_⟩
  · have hsplit : rest.take i ++ rest.drop i = rest := List.take_append_drop i rest
    have hdrop : rest.drop i = '>' :: '>' :: (rest.drop i).drop 2 := by
      conv_lhs => rw [← List.take_append_drop 2 (rest.drop i)]
      rw [h2]
      rfl
    conv_lhs => rw [← hsplit, hdrop]
  · intro c hc
    have := List.all_eq_true.mp h1 c hc
    simpa using this
  · intro c hc
    exact List.all_eq_true.mp h3 c hc

theorem decomp_validSplit {rest mid ws : Str} (hr : rest = mid ++ '>' :: '>' :: ws)
    (hnn : NoNewline mid) (hws : AllSpace ws) : validSplit rest mid.length = true := by
  have htake : rest.take mid.length = mid := by rw [hr]; exact List.take_left mid _
  have hdrop : rest.drop mid.length = '>' :: '>' :: ws := by rw [hr]; exact List.drop_left mid _
  unfold validSplit
  rw [Bool.and_eq_true, Bool.and_eq_true, htake, hdrop]
  refine ⟨⟨?_, by rfl⟩, ?_⟩
  · exact List.all_eq_true.mpr fun c hc => by simpa using hnn c hc
  · exact List.all_eq_true.mpr fun c hc => hws c hc

theorem validSplit_le {rest : Str} {i : Nat} (h : validSplit rest i = true) :
    i ≤ rest.length := by
  unfold validSplit at h
  rw [Bool.and_eq_true, Bool.and_eq_true] at h
  obtain ⟨⟨_, h2⟩, _⟩ := h
  rw [beq_iff_eq] at h2
  by_contra hgt
  rw [Nat.not_le] at hgt
  have : rest.drop i = [] := List.drop_eq_nil_of_le (Nat.le_of_lt hgt)
  rw [this] at h2
  cases h2

theorem findGreedyAux_none (rest : Str) :
    ∀ n, findGreedyAux rest n = none → ∀ j, j ≤ n → validSplit rest j = false := by
  intro n
  induction n with
  | zero =>
      intro h j hj
      rw [Nat.le_zero] at hj
      subst hj
      unfold findGreedyAux at h
      by_cases hv : validSplit rest 0 = true
      · rw [if_pos hv] at h; cases h
      · rwa [Bool.not_eq_true] at hv
  | succ n ih =>
      intro h j hj
      unfold findGreedyAux at h
      by_cases hv : validSplit rest (n + 1) = true
      · rw [if_pos hv] at h; cases h
      · rw [if_neg hv] at h
        rcases Nat.lt_or_ge j (n + 1) with hlt | hge
        · exact ih h j (Nat.lt_succ_iff.mp hlt)
        · have hj1 : j = n + 1 := Nat.le_antisymm hj hge
          subst hj1
          rwa [Bool.not_eq_true] at hv

theorem findGreedyAux_some (rest : Str) :
    ∀ n i, findGreedyAux rest n = some i →
      validSplit rest i = true ∧ i ≤ n ∧ ∀ j, j ≤ n → validSplit rest j = true → j ≤ i := by
  intro n
  induction n with
  | zero =>
      intro i h
      unfold findGreedyAux at h
      by_cases hv : validSplit rest 0 = true
      · rw [if_pos hv] at h
        cases h
        exact ⟨hv, Nat.le_refl 0, fun j hj _ => hj⟩
      · rw [if_neg hv] at h; cases h
  | succ n ih =>
      intro i h
      unfold findGreedyAux at h
      by_cases hv : validSplit rest (n + 1) = true
      · rw [if_pos hv] at h
        cases h
        exact ⟨hv, Nat.le_refl _, fun j hj _ => hj⟩
      · rw [if_neg hv] at h
        obtain ⟨h1, h2, h3⟩ := ih i h
        refine ⟨h1, Nat.le_succ_of_le h2, fun j hj hvj => ?_⟩
        rcases Nat.lt_or_ge j (n + 1) with hlt | hge
        · exact h3 j (Nat.lt_succ_iff.mp hlt) hvj
        · have : j = n + 1 := Nat.le_antisymm hj hge
          subst this
          exact absurd hvj hv

theorem findGreedyAux_isSome (rest : Str) :
    ∀ n j, j ≤ n → validSplit rest j = true → (findGreedyAux rest n).isSome = true := by
  intro n
  induction n with
  | zero =>
      intro j hj hv
      rw [Nat.le_zero] at hj
      subst hj
      unfold findGreedyAux
      rw [if_pos hv]
      rfl
  | succ n ih =>
      intro j hj hv
      unfold findGreedyAux
      by_cases hvs : validSplit rest (n + 1) = true
      · rw [if_pos hvs]; rfl
      · rw [if_neg hvs]
        rcases Nat.lt_or_ge j (n + 1) with hlt | hge
        · exact ih j (Nat.lt_succ_iff.mp hlt) hv
        · have : j = n + 1 := Nat.le_antisymm hj hge
          subst this
          exact absurd hv hvs

theorem rxDirectiveMatch_none_iff (s : Str) :
    rxDirectiveMatch s = none ↔ ∀ mid ws, ¬ Decomp s mid ws := by
  constructor
  · intro h mid ws hd
    obtain ⟨hs, hnn, hws⟩ := hd
    have hpre : (s.take 2 == ['<', '<']) = true := by rw [hs]; rfl
    have hrest : s.drop 2 = mid ++ '>' :: '>' :: ws := by rw [hs]; rfl
    have hvalid : validSplit (s.drop 2) mid.length = true :=
      decomp_validSplit hrest hnn hws
    unfold rxDirectiveMatch at h
    rw [if_pos hpre] at h
    cases hf : findGreedyAux (s.drop 2) (s.drop 2).length with
    | some i => rw [hf] at h; cases h
    | none =>
        have := findGreedyAux_none _ _ hf mid.length (validSplit_le hvalid)
        rw [this] at hvalid
        cases hvalid
  · intro h
    unfold rxDirectiveMatch
    by_cases hpre : (s.take 2 == ['<', '<']) = true
    · rw [if_pos hpre]
      cases hf : findGreedyAux (s.drop 2) (s.drop 2).length with
      | none => rfl
      | some i =>
          obtain ⟨hv, _, _⟩ := findGreedyAux_some _ _ _ hf
          have hd := validSplit_decomp hv
          have hs : s = '<' :: '<' :: s.drop 2 := by
            conv_lhs => rw [← List.take_append_drop 2 s]
            rw [beq_iff_eq] at hpre
            rw [hpre]
            rfl
          rw [← hs] at hd
          exact absurd hd (h _ _)
    · rw [if_neg hpre]

theorem rxDirectiveMatch_greedy {s mid : Str} (h : GreedyCapture s mid) :
    rxDirectiveMatch s = some mid := by
  obtain ⟨⟨ws, hd⟩, hmax⟩ := h
  obtain ⟨hs, hnn, hws⟩ := hd
  have hpre : (s.take 2 == ['<', '<']) = true := by rw [hs]; rfl
  have hrest : s.drop 2 = mid ++ '>' :: '>' :: ws := by rw [hs]; rfl
  have hvalid : validSplit (s.drop 2) mid.length = true := decomp_validSplit hrest hnn hws
  have hss : (findGreedyAux (s.drop 2) (s.drop 2).length).isSome = true :=
    findGreedyAux_isSome _ _ _ (validSplit_le hvalid) hvalid
  obtain ⟨i, hf⟩ := Option.isSome_iff_exists.mp hss
  obtain ⟨hv, hle, hmaxf⟩ := findGreedyAux_some _ _ _ hf
  have hile : mid.length ≤ i := hmaxf mid.length (validSplit_le hvalid) hvalid
  have hd2 := validSplit_decomp hv
  have hs2 : s = '<' :: '<' :: s.drop 2 := by
    conv_lhs => rw [← List.take_append_drop 2 s]
    rw [beq_iff_eq] at hpre
    rw [hpre]
    rfl
  rw [← hs2] at hd2
  have hgiven : ((s.drop 2).take i).length ≤ mid.length := hmax _ _ hd2
  have hlen : ((s.drop 2).take i).length = i := by
    rw [List.length_take]
    exact Nat.min_eq_left (Nat.le_trans (Nat.le_refl i) (validSplit_le hv))
  rw [hlen] at hgiven
  have hieq : i = mid.length := Nat.le_antisymm hgiven hile
  unfold rxDirectiveMatch
  rw [if_pos hpre, hf, hieq]
  rw [hrest]
  show some ((mid ++ '>' :: '>' :: ws).take mid.length) = some mid
  rw [List.take_left mid]

/-- C4: `parseDirective` reports "not a directive" for every line without a
leading tab or leading run of exactly four spaces; for every indented line
whose unindented remainder admits no decomposition matching
`^<<(.*)>>\s*$`, it also reports "not a directive"; and when the remainder
matches, it returns the greedy capture trimmed of surrounding whitespace.
Being a plain function of the line, it has no side effects. -/
theorem c4_parseDirective_characterization (line : Str) :
    ((unindent line).2 = false → parseDirective line = ([], false)) ∧
    ((unindent line).2 = true → (∀ mid ws, ¬ Decomp (unindent line).1 mid ws) →
       parseDirective line = ([], false)) ∧
    (∀ mid, (unindent line).2 = true → GreedyCapture (unindent line).1 mid →
       parseDirective line = (trimSpace mid, true)) := by
  refine ⟨fun h => ?_, fun h hnm => ?_, fun mid h hg => ?_⟩
  · unfold parseDirective
    rw [if_neg (by simp [h])]
  · unfold parseDirective
    rw [if_pos h, (rxDirectiveMatch_none_iff _).mpr hnm]
  · unfold parseDirective
    rw [if_pos h, rxDirectiveMatch_greedy hg]

/-- Witness for C4 on the concrete directive line `"\t<<abc>>"`, whose
greedy capture is `"abc"`. -/
theorem c4_witness :
    parseDirective "\t<<abc>>".data = (trimSpace "abc".data, true) :=
  (c4_parseDirective_characterization "\t<<abc>>".data).2.2 "abc".data (by decide)
    ⟨⟨[], by decide, show ∀ c ∈ "abc".data, c ≠ '\n' by decide,
        show ∀ c ∈ ([] : Str), isRegexSpace c = true by decide⟩, fun mid2 ws2 hd2 => by
      have h7 : ((unindent "\t<<abc>>".data).1).length = 7 := by decide
      have h3 : ("abc".data).length = 3 := by decide
      have hlen := congrArg List.length hd2.1
      rw [h7] at hlen
      simp only [List.length_cons, List.length_append] at hlen
      omega⟩

/-! ### The documentation stream -/

theorem processLine_directive_none (l : Str) (st : ProcState)
    (hd : (parseDirective l).2 = true) : (processLine l st).2 = none := by
  unfold processLine
  rw [if_pos hd]

theorem processLine_boiler_record (l : Str) (st : ProcState)
    (hd : (parseDirective l).2 = false)
    (hb : (st.state == lineType.Boilerplate && ((unindent l).2 || trimSpace l == [])) = true) :
    (processLine l st).2 = some ⟨(unindent l).1, st.currentTarget, [], []⟩ := by
  rw [Bool.and_eq_true, beq_iff_eq] at hb
  obtain ⟨hs, hc⟩ := hb
  obtain ⟨s, dc, dt, ct⟩ := st
  dsimp only at hs
  subst hs
  unfold processLine
  rw [if_neg (by simp [hd])]
  dsimp only
  rw [if_pos hc]

theorem processLine_text_record (l : Str) (st : ProcState)
    (hd : (parseDirective l).2 = false)
    (hb : (st.state == lineType.Boilerplate && ((unindent l).2 || trimSpace l == [])) = false) :
    ∃ r, (processLine l st).2 = some r ∧ r.Text = l ∧ r.TextTarget = st.defaultTextOutput := by
  obtain ⟨s, dc, dt, ct⟩ := st
  unfold processLine
  rw [if_neg (by simp [hd])]
  cases s <;> dsimp only at hb ⊢
  · split <;> exact ⟨_, rfl, rfl, rfl⟩
  · simp only [beq_self_eq_true, Bool.true_and] at hb
    rw [if_neg (by rw [hb]; simp)]
    exact ⟨_, rfl, rfl, rfl⟩
  · split <;> exact ⟨_, rfl, rfl, rfl⟩
  · split <;> exact ⟨_, rfl, rfl, rfl⟩

theorem textConcat_append (a b : List Line) :
    textConcat (a ++ b) = textConcat a ++ textConcat b := by
  induction a with
  | nil => simp [textConcat]
  | cons r rs ih => simp [textConcat, ih, List.append_assoc]

/-- C1 fails on the code: a boilerplate run is dropped from the text stream
entirely, so on the document `"\t<<#-->>\n"`, `"\tx\n"` the concatenated
text fields (empty) do not reconstruct the document minus its directive
lines (`"\tx\n"`). -/
theorem c1_counterexample :
    textConcat (processLines ["\t<<#-->>\n".data, "\tx\n".data]
        (initState "foo.cpp.md".data)).2
      ≠ (["\t<<#-->>\n".data, "\tx\n".data].filter
          (fun l => !(parseDirective l).2)).flatten := by
  decide

/-- C1 (amended): concatenating, in emission order, the `Text` fields of
the emitted records whose `TextTarget` is non-empty reconstructs the
original document with the directive lines *and the indented-or-blank
continuation lines of boilerplate runs* removed (the latter are suppressed
from the documentation stream by design). -/
theorem c1_text_roundtrip_amended (ls : List Str) (st : ProcState)
    (h : st.defaultTextOutput ≠ []) :
    textConcat (processLines ls st).2 = (docKeep st ls).flatten := by
  induction ls generalizing st with
  | nil => simp [processLines, docKeep, textConcat]
  | cons l rest ih =>
      have hdt : (processLine l st).1.defaultTextOutput = st.defaultTextOutput :=
        processLine_defaultText l st
      have ih' := ih (processLine l st).1 (by rw [hdt]; exact h)
      unfold processLines docKeep
      rw [textConcat_append, List.flatten_append, ih']
      by_cases hd : (parseDirective l).2 = true
      · rw [processLine_directive_none l st hd, if_pos hd]
        rfl
      · rw [Bool.not_eq_true] at hd
        rw [if_neg (by simp [hd])]
        by_cases hb : (st.state == lineType.Boilerplate
            && ((unindent l).2 || trimSpace l == [])) = true
        · rw [processLine_boiler_record l st hd hb, if_pos hb]
          rfl
        · rw [Bool.not_eq_true] at hb
          obtain ⟨r, hr, hrt, hrtt⟩ := processLine_text_record l st hd hb
          rw [hr, if_neg (by rw [hb]; simp)]
          show (if r.TextTarget == [] then [] else r.Text) ++ textConcat [] ++ _ = _
          rw [hrtt, hrt]
          have : (st.defaultTextOutput == []) = false := by simp [h]
          rw [this]
          simp [textConcat]

/-- Witness for C1 (amended) on a concrete document mixing prose, code, a
boilerplate run and a blank continuation line. -/
theorem c1_witness :
    textConcat (processLines
        ["# T\n".data, "\tcode\n".data, "\t<<#-->>\n".data, "\tboil\n".data,
         "\n".data, "after\n".data]
        (initState "foo.cpp.md".data)).2
      = (docKeep (initState "foo.cpp.md".data)
          ["# T\n".data, "\tcode\n".data, "\t<<#-->>\n".data, "\tboil\n".data,
           "\n".data, "after\n".data]).flatten :=
  c1_text_roundtrip_amended _ _ (by decide)

/-! ### Target-field invariants -/

theorem processDirective_currentTarget_ne (d : Str) (st : ProcState)
    (hct : st.currentTarget ≠ []) (hdc : st.defaultCodeOutput ≠ []) :
    (processDirective d st).currentTarget ≠ [] := by
  unfold processDirective
  by_cases h1 : (d == ['!', '-', '-']) = true
  · rw [if_pos h1]; exact hct
  · rw [if_neg h1]
    by_cases h2 : (d == ['#', '-', '-']) = true
    · rw [if_pos h2]; exact hct
    · rw [if_neg h2]
      by_cases h3 : (d == []) = true
      · rw [if_pos h3]; exact hdc
      · rw [if_neg h3]
        simpa using h3

theorem processLine_currentTarget_ne (l : Str) (st : ProcState)
    (hct : st.currentTarget ≠ []) (hdc : st.defaultCodeOutput ≠ []) :
    (processLine l st).1.currentTarget ≠ [] := by
  by_cases hd : (parseDirective l).2 = true
  · have h0 : processLine l st = (processDirective (parseDirective l).1 st, none) := by
      unfold processLine
      rw [if_pos hd]
    rw [h0]
    exact processDirective_currentTarget_ne _ _ hct hdc
  · rw [Bool.not_eq_true] at hd
    rw [processLine_currentTarget l st hd]
    exact hct

theorem processLine_record_targets (l : Str) (st : ProcState)
    (hct : st.currentTarget ≠ []) (hdt : st.defaultTextOutput ≠ []) :
    ∀ r, (processLine l st).2 = some r →
      (r.Code ≠ [] → r.CodeTarget ≠ []) ∧ (r.CodeTarget ≠ [] ∨ r.TextTarget ≠ []) := by
  intro r hr
  obtain ⟨s, dc, dt, ct⟩ := st
  unfold processLine at hr
  by_cases hd : (parseDirective l).2 = true
  · rw [if_pos hd] at hr
    cases hr
  · rw [if_neg hd] at hr
    cases s <;> dsimp only at hr <;> split at hr <;> cases hr <;>
      first
        | exact ⟨fun _ => hct, Or.inl hct⟩
        | exact ⟨fun hc => absurd rfl hc, Or.inr hdt⟩

/-- C6 fails on the code: an indented line carrying no content after its
indent (here the line `"\t"` inside a code run) is emitted with an empty
`code` field but a non-empty `codeTarget`, so "codeTarget present exactly
when code present" does not hold of the emitted records. -/
theorem c6_counterexample :
    ¬ (∀ r ∈ (processLines ["\tint x;\n".data, "\t".data]
          (initState "foo.cpp.md".data)).2,
        (r.CodeTarget ≠ [] ↔ r.Code ≠ [])) := by
  decide

/-- C6 (amended): provided the targets in the state are non-empty (as they
are when derived from a document name by `initState`), every emitted record
has a non-empty `codeTarget` whenever its `code` field is non-empty — the
converse can fail on blank/empty code lines — and every record carries at
least one non-empty target, so no record for a non-suppressed line has both
targets absent. -/
theorem c6_target_pairing_amended (ls : List Str) (st : ProcState)
    (hct : st.currentTarget ≠ []) (hdc : st.defaultCodeOutput ≠ [])
    (hdt : st.defaultTextOutput ≠ []) :
    ∀ r ∈ (processLines ls st).2,
      (r.Code ≠ [] → r.CodeTarget ≠ []) ∧ (r.CodeTarget ≠ [] ∨ r.TextTarget ≠ []) := by
  induction ls generalizing st with
  | nil =>
      intro r hr
      simp [processLines] at hr
  | cons l rest ih =>
      intro r hr
      unfold processLines at hr
      rw [List.mem_append] at hr
      rcases hr with hr | hr
      · cases ho : (processLine l st).2 with
        | none => rw [ho] at hr; cases hr
        | some r' =>
            rw [ho] at hr
            have : r = r' := by simpa using hr
            subst this
            exact processLine_record_targets l st hct hdt r ho
      · have hct' := processLine_currentTarget_ne l st hct hdc
        have hdc' : (processLine l st).1.defaultCodeOutput ≠ [] := by
          rw [processLine_defaultCode]; exact hdc
        have hdt' : (processLine l st).1.defaultTextOutput ≠ [] := by
          rw [processLine_defaultText]; exact hdt
        exact ih (processLine l st).1 hct' hdc' hdt' r hr

/-- Witness for C6 (amended): the record emitted for `"\tx\n"` from the
freshly initialized state for `foo.cpp.md` has a non-empty target. -/
theorem c6_witness :
    ((⟨"x\n".data, "foo.cpp".data, "\tx\n".data, "foo.md".data⟩ : Line).CodeTarget ≠ [] ∨
     (⟨"x\n".data, "foo.cpp".data, "\tx\n".data, "foo.md".data⟩ : Line).TextTarget ≠ []) :=
  (c6_target_pairing_amended ["\tx\n".data] (initState "foo.cpp.md".data)
    (by decide) (by decide) (by decide)
    ⟨"x\n".data, "foo.cpp".data, "\tx\n".data, "foo.md".data⟩ (by decide)).2

/-! ### Directive-free runs -/

theorem processLine_state_tc (l : Str) (st : ProcState)
    (hd : (parseDirective l).2 = false)
    (hs : st.state = lineType.Text ∨ st.state = lineType.Code) :
    (processLine l st).1.state = lineType.Text ∨ (processLine l st).1.state = lineType.Code := by
  obtain ⟨s, dc, dt, ct⟩ := st
  unfold processLine
  rw [if_neg (by simp [hd])]
  dsimp only at hs
  cases s
  · dsimp only
    split
    · exact Or.inr rfl
    · exact Or.inl rfl
  · rcases hs with h | h <;> cases h
  · rcases hs with h | h <;> cases h
  · dsimp only
    split
    · exact Or.inr rfl
    · exact Or.inl rfl

theorem processLines_no_directive (ls : List Str) (st : ProcState)
    (hnd : ∀ l ∈ ls, (parseDirective l).2 = false) :
    (processLines ls st).1.currentTarget = st.currentTarget ∧
    ((st.state = lineType.Text ∨ st.state = lineType.Code) →
      ((processLines ls st).1.state = lineType.Text ∨
       (processLines ls st).1.state = lineType.Code)) := by
  induction ls generalizing st with
  | nil => exact ⟨rfl, id⟩
  | cons l rest ih =>
      have hdl : (parseDirective l).2 = false := hnd l (List.mem_cons_self l rest)
      have hrest : ∀ x ∈ rest, (parseDirective x).2 = false :=
        fun x hx => hnd x (List.mem_cons_of_mem l hx)
      have ih' := ih (processLine l st).1 hrest
      unfold processLines
      refine ⟨?_, fun hs => ?_⟩
      · rw [ih'.1, processLine_currentTarget l st hdl]
      · exact ih'.2 (processLine_state_tc l st hdl hs)

theorem processLines_defaults (ls : List Str) (st : ProcState) :
    (processLines ls st).1.defaultCodeOutput = st.defaultCodeOutput ∧
    (processLines ls st).1.defaultTextOutput = st.defaultTextOutput := by
  induction ls generalizing st with
  | nil => exact ⟨rfl, rfl⟩
  | cons l rest ih =>
      have ih' := ih (processLine l st).1
      unfold processLines
      exact ⟨ih'.1.trans (processLine_defaultCode l st),
             ih'.2.trans (processLine_defaultText l st)⟩

theorem processLine_emit_code (l : Str) (st : ProcState)
    (hd : (parseDirective l).2 = false) (hcode : (unindent l).2 = true)
    (hs : st.state = lineType.Text ∨ st.state = lineType.Code) :
    (processLine l st).2 = some ⟨(unindent l).1, st.currentTarget, l, st.defaultTextOutput⟩ := by
  obtain ⟨s, dc, dt, ct⟩ := st
  unfold processLine
  rw [if_neg (by simp [hd])]
  dsimp only at hs
  rcases hs with h | h <;> subst h <;> dsimp only
  · rw [if_pos hcode]
  · rw [if_pos (by rw [hcode]; rfl)]

/-- C9: a classifier constructed for document `F` starts with
`currentTarget` equal to `defaultCodeTarget`; on `foo.cpp.md` the defaults
are `foo.cpp` (one extension stripped) and `foo.md` (all extensions
stripped plus `.md`); and after any directive-free prefix, an indented
non-directive line is emitted as code aimed at the document-derived default
code target. -/
theorem c9_default_targets (f : Str) :
    (initState f).currentTarget = (initState f).defaultCodeOutput ∧
    (initState "foo.cpp.md".data).defaultCodeOutput = "foo.cpp".data ∧
    (initState "foo.cpp.md".data).defaultTextOutput = "foo.md".data ∧
    (∀ (ls : List Str) (l : Str),
      (∀ x ∈ ls, (parseDirective x).2 = false) →
      (parseDirective l).2 = false → (unindent l).2 = true →
      (processLine l (processLines ls (initState f)).1).2
        = some ⟨(unindent l).1, removeExtension f, l,
                removeExtensions f ++ ['.', 'm', 'd']⟩) := by
  refine ⟨rfl, by decide, by decide, fun ls l hnd hdl hcode => ?_⟩
  have hrun := processLines_no_directive ls (initState f) hnd
  have hct : (processLines ls (initState f)).1.currentTarget = removeExtension f := hrun.1
  have hst := hrun.2 (Or.inl rfl)
  have hdt : (processLines ls (initState f)).1.defaultTextOutput
      = removeExtensions f ++ ['.', 'm', 'd'] := (processLines_defaults ls (initState f)).2
  rw [processLine_emit_code l _ hdl hcode hst, hct, hdt]

/-- Witness for C9: after the directive-free prose line `"intro\n"`, the
indented line `"\tcode\n"` of document `foo.cpp.md` is emitted targeting
`foo.cpp` and `foo.md`. -/
theorem c9_witness :
    (processLine "\tcode\n".data
        (processLines ["intro\n".data] (initState "foo.cpp.md".data)).1).2
      = some ⟨"code\n".data, removeExtension "foo.cpp.md".data, "\tcode\n".data,
              removeExtensions "foo.cpp.md".data ++ ['.', 'm', 'd']⟩ :=
  (c9_default_targets "foo.cpp.md".data).2.2.2 ["intro\n".data] "\tcode\n".data
    (by decide) (by decide) (by decide)

/-! ### Termination of the `removeExtensions` loop -/

theorem dropWhile_eq_self_of (p : Char → Bool) (l : Str) (h : ∀ c ∈ l, p c = false) :
    l.dropWhile p = l := by
  cases l with
  | nil => rfl
  | cons c t =>
      rw [List.dropWhile_cons, if_neg]
      rw [h c (List.mem_cons_self c t)]
      simp

theorem takeWhile_eq_self_of (p : Char → Bool) (l : Str) (h : ∀ c ∈ l, p c = true) :
    l.takeWhile p = l := by
  induction l with
  | nil => rfl
  | cons c t ih =>
      rw [List.takeWhile_cons, if_pos (by rw [h c (List.mem_cons_self c t)])]
      rw [ih fun x hx => h x (List.mem_cons_of_mem c hx)]

theorem removeExtension_nil : removeExtension [] = [] := by decide

theorem removeExtension_root : removeExtension ['/'] = ['/'] := by decide

theorem base_of_no_slash (s : Str) (hne : s ≠ [])
    (hns : ∀ c ∈ s, (c == '/') = false) : base s = s := by
  unfold base
  rw [if_neg (by simp [hne])]
  have hdrop : s.reverse.dropWhile (fun c => c == '/') = s.reverse :=
    dropWhile_eq_self_of _ _ fun c hc => hns c (List.mem_reverse.mp hc)
  rw [hdrop, List.reverse_reverse]
  rw [if_neg (by simp [hne])]
  have htake : s.reverse.takeWhile (fun c => c != '/') = s.reverse := by
    refine takeWhile_eq_self_of _ _ fun c hc => ?_
    have := hns c (List.mem_reverse.mp hc)
    simpa using this
  rw [htake, List.reverse_reverse]

theorem base_no_slash (s : Str) :
    base s = ['/'] ∨ ∀ c ∈ base s, (c == '/') = false := by
  unfold base
  by_cases h0 : (s == []) = true
  · rw [if_pos h0]
    right
    intro c hc
    rw [List.mem_singleton] at hc
    subst hc
    rfl
  · rw [if_neg h0]
    by_cases h1 : ((s.reverse.dropWhile (fun c => c == '/')).reverse == []) = true
    · rw [if_pos h1]
      exact Or.inl rfl
    · rw [if_neg h1]
      right
      intro c hc
      rw [List.mem_reverse] at hc
      have := List.mem_takeWhile_imp hc
      simpa using this

theorem takeWhile_length_le (p : Char → Bool) (l : Str) :
    (l.takeWhile p).length ≤ l.length := by
  induction l with
  | nil => exact Nat.le_refl 0
  | cons c t ih =>
      rw [List.takeWhile_cons]
      split
      · rw [List.length_cons, List.length_cons]
        exact Nat.succ_le_succ ih
      · exact Nat.zero_le _

theorem dropWhile_length_le (p : Char → Bool) (l : Str) :
    (l.dropWhile p).length ≤ l.length := by
  induction l with
  | nil => exact Nat.le_refl 0
  | cons c t ih =>
      rw [List.dropWhile_cons]
      split
      · exact Nat.le_trans ih (by rw [List.length_cons]; exact Nat.le_succ _)
      · exact Nat.le_refl _

theorem base_length_le (s : Str) (hne : s ≠ []) : (base s).length ≤ s.length := by
  unfold base
  rw [if_neg (by simp [hne])]
  by_cases h1 : ((s.reverse.dropWhile (fun c => c == '/')).reverse == []) = true
  · rw [if_pos h1]
    simpa using Nat.succ_le_of_lt (List.length_pos.mpr hne)
  · rw [if_neg h1]
    calc ((s.reverse.dropWhile (fun c => c == '/')).reverse.reverse.takeWhile
            (fun c => c != '/')).reverse.length
        ≤ (s.reverse.dropWhile (fun c => c == '/')).reverse.reverse.length := by
          rw [List.length_reverse]
          exact takeWhile_length_le _ _
      _ ≤ s.length := by
          rw [List.reverse_reverse, ← List.length_reverse s]
          exact dropWhile_length_le _ _

theorem removeExtension_length_le (f : Str) (hne : f ≠ []) :
    (removeExtension f).length ≤ f.length := by
  unfold removeExtension
  rw [List.length_take]
  exact Nat.le_trans (Nat.min_le_right _ _) (base_length_le f hne)

theorem removeExtension_cases (s : Str) (hne : s ≠ [])
    (hns : ∀ c ∈ s, (c == '/') = false) :
    removeExtension s = s ∨ (removeExtension s).length < s.length := by
  unfold removeExtension
  rw [base_of_no_slash s hne hns]
  cases hk : extLen s with
  | zero =>
      left
      rw [Nat.sub_zero]
      exact List.take_length s
  | succ k =>
      right
      rw [List.length_take]
      have hpos : 0 < s.length := List.length_pos.mpr hne
      omega

theorem removeExtension_no_slash (s : Str) (hne : s ≠ [])
    (hns : ∀ c ∈ s, (c == '/') = false) :
    ∀ c ∈ removeExtension s, (c == '/') = false := by
  intro c hc
  unfold removeExtension at hc
  rw [base_of_no_slash s hne hns] at hc
  exact hns c (List.take_subset _ _ hc)

theorem removeExtension_shape (f : Str) :
    removeExtension f = ['/'] ∨ ∀ c ∈ removeExtension f, (c == '/') = false := by
  rcases base_no_slash f with h | h
  · left
    unfold removeExtension
    rw [h]
    decide
  · right
    intro c hc
    unfold removeExtension at hc
    exact h c (List.take_subset _ _ hc)

theorem fuel_fix (s : Str) (h : removeExtension s = s) (n : Nat) :
    removeExtensionsFuel (n + 1) s = s := by
  conv_lhs => unfold removeExtensionsFuel
  rw [if_pos (by rw [h]; simp)]

theorem fuel_step (s : Str) (h : removeExtension s ≠ s) (n : Nat) :
    removeExtensionsFuel (n + 1) s = removeExtensionsFuel n (removeExtension s) := by
  conv_lhs => unfold removeExtensionsFuel
  rw [if_neg]
  rw [beq_iff_eq]
  exact fun hh => h hh.symm

theorem fuel_reaches_fix : ∀ (n : Nat) (s : Str), s.length ≤ n →
    (∀ c ∈ s, (c == '/') = false) →
    removeExtension (removeExtensionsFuel (n + 1) s) = removeExtensionsFuel (n + 1) s := by
  intro n
  induction n with
  | zero =>
      intro s hlen _
      have h0 : s = [] := List.length_eq_zero.mp (Nat.le_zero.mp hlen)
      subst h0
      rw [fuel_fix [] removeExtension_nil]
      exact removeExtension_nil
  | succ n ih =>
      intro s hlen hns
      by_cases heq : removeExtension s = s
      · rw [fuel_fix s heq]
        exact heq
      · have hne : s ≠ [] := fun h0 => heq (h0 ▸ removeExtension_nil)
        rcases removeExtension_cases s hne hns with h | hlt
        · exact absurd h heq
        · rw [fuel_step s heq]
          exact ih (removeExtension s) (by omega) (removeExtension_no_slash s hne hns)

theorem removeExtensions_fix (f : Str) :
    removeExtension (removeExtensions f) = removeExtensions f := by
  unfold removeExtensions
  by_cases heq : removeExtension f = f
  · rw [fuel_fix f heq]
    exact heq
  · have hne : f ≠ [] := fun h0 => heq (h0 ▸ removeExtension_nil)
    have hstep : removeExtensionsFuel (f.length + 2) f
        = removeExtensionsFuel (f.length + 1) (removeExtension f) := fuel_step f heq _
    rw [hstep]
    rcases removeExtension_shape f with hroot | hns
    · rw [hroot, fuel_fix ['/'] removeExtension_root]
      exact removeExtension_root
    · exact fuel_reaches_fix f.length (removeExtension f)
        (removeExtension_length_le f hne) hns

/-- C10: iterating `removeExtension` always reaches a fixed point — the
value computed by `removeExtensions` satisfies the loop's exit condition —
so the `for f1 != f2` loop terminates on every input and deriving the
default text target is total, including on the edge inputs `""`, `"."`,
`".gitignore"` and `"/"`. -/
theorem c10_removeExtensions_terminates :
    (∀ f : Str, removeExtension (removeExtensions f) = removeExtensions f) ∧
    removeExtensions [] = [] ∧
    removeExtensions ['.'] = [] ∧
    removeExtensions ".gitignore".data = [] ∧
    removeExtensions ['/'] = ['/'] :=
  ⟨removeExtensions_fix, by decide, by decide, by decide, by decide⟩

end Mdweb
